import Mathlib

/-!
Verification of the web-fetch content-extraction-and-pagination pipeline
(`src/index.ts`) against its specification.

The source is shallowly embedded: document content (HTML fragments,
converted markdown) is modelled as `List Char` so that character offsets
used by the truncation and heading machinery are exact; URLs, cache keys
and titles remain `String`.  JavaScript strings are treated as sequences
of characters (all inputs of interest are ASCII, where UTF-16 code units
and characters coincide).  The HTTP transport, DOM parsing, the
readability scorer and the HTML-to-markdown converter are external
collaborators: the post-extraction pipeline takes the extracted fragment
and an opaque converter function as parameters, exactly at the boundary
the source draws (everything from `extractHeadings` onwards is real code
and is transcribed).
-/

set_option maxRecDepth 100000

namespace WebFetch

/-! ### Generic character-list utilities (JavaScript string primitives) -/

/-- JavaScript `String.prototype.substring(start, end)`: clamps both indices
to the string length and swaps them when `start > end`. -/
def jsSubstring (l : List Char) (a b : Nat) : List Char :=
  let a' := min a l.length
  let b' := min b l.length
  let s := min a' b'
  let e := max a' b'
  (l.drop s).take (e - s)

/-- JavaScript `String.prototype.trim`, dropping whitespace from both ends. -/
def trimList (l : List Char) : List Char :=
  ((l.dropWhile Char.isWhitespace).reverse.dropWhile Char.isWhitespace).reverse

/-- `text.map(toLowerCase)` at the character level. -/
def lowerList (l : List Char) : List Char :=
  l.map Char.toLower

/-- JavaScript `haystack.includes(needle)`: substring containment. -/
def containsSub (needle : List Char) : List Char → Bool
  | [] => needle.isPrefixOf []
  | c :: t => needle.isPrefixOf (c :: t) || containsSub needle t

/-- Accumulator scan behind `lastNewlineIdx`: walks the list keeping the
index of the most recent newline seen at an index `≤ pos`. -/
def lastNlAux : List Char → Nat → Nat → Option Nat → Option Nat
  | [], _, _, best => best
  | c :: t, i, pos, best =>
      if i ≤ pos then lastNlAux t (i + 1) pos (if c = '\n' then some i else best)
      else best

/-- JavaScript `text.lastIndexOf('\n', pos)`: the largest index `i ≤ pos`
with `text[i] = '\n'`, if any (`-1` in the source is modelled as `none`). -/
def lastNewlineIdx (l : List Char) (pos : Nat) : Option Nat :=
  lastNlAux l 0 pos none

/-! ### Paginator: `truncateMarkdown` (src/index.ts lines 171-198) -/

/-- The truncation marker appended to every truncated chunk. -/
def truncMarker : List Char := "\n\n[... Truncated ...]".toList

/-- Return type of `truncateMarkdown`.  The source only attaches
`originalLength` on the truncated branch, modelled as an `Option`. -/
structure TruncateResult where
  markdown : List Char
  hasMore : Bool
  nextOffset : Nat
  originalLength : Option Nat
  deriving DecidableEq

/-- Transcription of `truncateMarkdown`.  The float comparison
`lastNewline > start + maxChars * 0.8` is modelled exactly over the
rationals as `5 * lastNewline > 5 * start + 4 * maxChars`; when
`lastIndexOf` returned `-1` the source comparison is false because the
right side is non-negative. -/
def truncateMarkdown (markdown : List Char) (maxChars : Nat) (offset : Nat) :
    TruncateResult :=
  let start := offset
  if markdown.length ≤ start then
    ⟨[], false, start, none⟩
  else if markdown.length - start ≤ maxChars then
    ⟨markdown.drop start, false, markdown.length, none⟩
  else
    let endPos :=
      match lastNewlineIdx markdown (start + maxChars) with
      | some lastNl =>
          if 5 * lastNl > 5 * start + 4 * maxChars then lastNl else start + maxChars
      | none => start + maxChars
    ⟨trimList (jsSubstring markdown start endPos) ++ truncMarker, true, endPos,
      some markdown.length⟩

/-! ### Heading Indexer: `extractHeadings` / `buildTOC` (lines 107-129) -/

/-- A heading found in the extracted HTML fragment: level (1-3), its
tag-stripped trimmed text, and the character offset of the match. -/
structure Heading where
  level : Nat
  text : List Char
  position : Nat
  deriving DecidableEq

/-- Splits a list at the first `'>'`, returning the part strictly before it
and the part strictly after it (the greedy `[^>]*>` step of the regexes). -/
def splitAtGt : List Char → Option (List Char × List Char)
  | [] => none
  | c :: t =>
      if c = '>' then some ([], t)
      else (splitAtGt t).map (fun p => (c :: p.1, p.2))

/-- JavaScript `text.replace(/<[^>]*>/g, '')`: removes every span from a
`'<'` to the next `'>'`; a `'<'` with no later `'>'` is kept verbatim.
Fuel-based because recursion continues on a non-structural suffix. -/
def stripTagsAux : Nat → List Char → List Char
  | 0, l => l
  | _ + 1, [] => []
  | fuel + 1, c :: t =>
      if c = '<' then
        match splitAtGt t with
        | some p => stripTagsAux fuel p.2
        | none => c :: stripTagsAux fuel t
      else c :: stripTagsAux fuel t

def stripTags (l : List Char) : List Char :=
  stripTagsAux l.length l

/-- Recognises the closing tag `</h<d>>` (case-insensitive `h`, exact digit
`d` from the backreference) at the head of the list. -/
def isCloseTag (d : Char) : List Char → Bool
  | a :: b :: c :: e :: f :: _ =>
      a = '<' && b = '/' && (c = 'h' || c = 'H') && e = d && f = '>'
  | _ => false

/-- The lazy `(.*?)<\/h\1>` step: scans for the earliest closing tag for
digit `d`, failing on a newline first (`.` does not match `'\n'`).
Returns the captured inner content and the remainder after the close tag. -/
def findCloseSplit (d : Char) : List Char → Option (List Char × List Char)
  | [] => none
  | c :: t =>
      if isCloseTag d (c :: t) then some ([], (c :: t).drop 5)
      else if c = '\n' then none
      else (findCloseSplit d t).map (fun p => (c :: p.1, p.2))

/-- Attempts the regex `<h([1-3])[^>]*>(.*?)<\/h\1>` (flags `gi`) at the
head of `r`.  On success returns the digit captured, the inner content,
and the total length of the match. -/
def tryHeadingAt : List Char → Option (Char × List Char × Nat)
  | a :: b :: c :: rest =>
      if a = '<' ∧ (b = 'h' ∨ b = 'H') ∧ (c = '1' ∨ c = '2' ∨ c = '3') then
        match splitAtGt rest with
        | none => none
        | some (attrs, afterGt) =>
            match findCloseSplit c afterGt with
            | none => none
            | some (inner, _) =>
                some (c, inner, 3 + attrs.length + 1 + inner.length + 5)
      else none
  | _ => none

/-- The `exec` loop of `extractHeadings` (lines 107-122): repeatedly finds
the next match, strips nested tags from its capture, trims it, and skips
headings whose resulting text is empty; scanning resumes after the end of
each match (or one character along when no match starts here). -/
def scanHeadings : Nat → List Char → Nat → List Heading
  | 0, _, _ => []
  | _ + 1, [], _ => []
  | fuel + 1, r, i =>
      match tryHeadingAt r with
      | some (d, inner, mlen) =>
          let txt := trimList (stripTags inner)
          let tail := scanHeadings fuel (r.drop mlen) (i + mlen)
          if txt = [] then tail
          else ⟨d.toNat - '0'.toNat, txt, i⟩ :: tail
      | none => scanHeadings fuel (r.drop 1) (i + 1)

def extractHeadings (html : List Char) : List Heading :=
  scanHeadings html.length html 0

/-- Joins lines with `'\n'` (JavaScript `Array.prototype.join('\n')`). -/
def joinNl : List (List Char) → List Char
  | [] => []
  | [x] => x
  | x :: xs => x ++ '\n' :: joinNl xs

/-- `buildTOC` (lines 124-129): one line per heading, indented by
`(level - 1)` two-space units, or `null` when no headings were found. -/
def buildTOC (headings : List Heading) : Option (List Char) :=
  if headings = [] then none
  else
    some (joinNl (headings.map (fun h =>
      List.replicate (2 * (h.level - 1)) ' ' ++ '-' :: ' ' :: h.text)))

/-! ### Section Filter: `filterContentByHeadings` (lines 131-169) -/

/-- A heading selector: a 1-based numeric position or a case-insensitive
substring to match against heading text.  Numeric selectors are modelled
as integers (the TypeScript type is `number`). -/
inductive Selector where
  | num (n : Int)
  | str (s : List Char)
  deriving DecidableEq

/-- JavaScript `Array.prototype.findIndex`: index of the first element
satisfying `p`, if any (`-1` is modelled as `none`). -/
def jsFindIndex (p : Heading → Bool) : List Heading → Option Nat
  | [] => none
  | h :: t => if p h then some 0 else (jsFindIndex p t).map (· + 1)

/-- The inner `for` loop of lines 154-159: position of the first heading in
the remaining list whose level is `≤ lvl`, defaulting to `dflt`. -/
def nextBoundary : List Heading → Nat → Nat → Nat
  | [], _, dflt => dflt
  | h :: t, lvl, dflt => if h.level ≤ lvl then h.position else nextBoundary t lvl dflt

structure FilterResult where
  html : List Char
  filtered : Bool
  error : Option String
  deriving DecidableEq

/-- One iteration of the `for` loop of `filterContentByHeadings`
(lines 139-162): resolves the selector to a heading index (`value - 1`
for numbers, `findIndex` of a case-insensitive substring match for
strings) and, when the index is in range, appends the section from the
heading's position to the next heading of equal-or-shallower level (or
end of fragment) followed by a blank line, setting the `filtered` flag. -/
def filterStep (html : List Char) (headings : List Heading)
    (acc : List Char × Bool) (target : Selector) : List Char × Bool :=
  let idx : Int :=
    match target with
    | .num n => n - 1
    | .str s =>
        match jsFindIndex
            (fun h => containsSub (lowerList s) (lowerList h.text)) headings with
        | some i => (i : Int)
        | none => -1
  if 0 ≤ idx ∧ idx < (headings.length : Int) then
    match headings[idx.toNat]? with
    | some hd =>
        let endPos := nextBoundary (headings.drop (idx.toNat + 1)) hd.level html.length
        (acc.1 ++ jsSubstring html hd.position endPos ++ '\n' :: '\n' :: [], true)
    | none => acc
  else acc

/-- Transcription of `filterContentByHeadings`: folds `filterStep` over the
selectors and reports failure when no selector resolved. -/
def filterContentByHeadings (html : List Char) (headings : List Heading)
    (targets : List Selector) : FilterResult :=
  let r := targets.foldl (filterStep html headings) ([], false)
  ⟨r.1, r.2, if r.2 then none else some "No matching headings found"⟩

/-! ### Continuation Store (lines 49-79) -/

/-- One cached pagination state.  The source nests `method` inside a
`metadata` object; it is flattened here. -/
structure CacheEntry where
  markdown : List Char
  offset : Nat
  url : String
  title : String
  method : String
  timestamp : Nat
  deriving DecidableEq

/-- The `contentCache` map, modelled as an association list with the
JavaScript `Map` insertion-order semantics. -/
abbrev Cache := List (String × CacheEntry)

/-- `Map.prototype.get`. -/
def cacheGet (c : Cache) (k : String) : Option CacheEntry :=
  (c.find? (fun kv => kv.1 = k)).map (fun kv => kv.2)

/-- `Map.prototype.set`: replaces the entry in place when the key exists,
otherwise appends. -/
def cacheSet (c : Cache) (k : String) (v : CacheEntry) : Cache :=
  if c.any (fun kv => kv.1 = k) then
    c.map (fun kv => if kv.1 = k then (k, v) else kv)
  else c ++ [(k, v)]

/-- `CACHE_TTL = 5 * 60 * 1000`. -/
def CACHE_TTL : Nat := 300000

/-- The background cleanup sweep (lines 62-69): evicts entries older than
the TTL at time `now`. -/
def cacheSweep (now : Nat) (c : Cache) : Cache :=
  c.filter (fun kv => ¬ now - kv.2.timestamp > CACHE_TTL)

/-- `clearWebFetchCache` (lines 73-75). -/
def clearWebFetchCache : Cache := ([] : List (String × CacheEntry))

/-- `generateCacheKey` (lines 77-79); `Date.now()` is passed explicitly as
`now`, and `JSON.stringify` of the numeric offset is its decimal form. -/
def generateCacheKey (url : String) (ty : String) (value : Nat) (now : Nat) : String :=
  url ++ ":" ++ ty ++ ":" ++ toString value ++ ":" ++ toString now

/-! ### Results and continuation handling (lines 40-47, 200-225) -/

structure WebFetchResult where
  title : String
  url : String
  markdown : List Char
  toc : Option (List Char)
  continuationToken : Option String
  method : String
  deriving DecidableEq

/-- Transcription of `handleContinuation`: resolves the token, truncates
from the stored offset, and when more content remains stores a fresh entry
under a newly generated key (the old entry is not removed).  The mutable
`contentCache` is threaded explicitly; the `throw` is an `Except.error`. -/
def handleContinuation (c : Cache) (token : String) (maxChars : Nat) (now : Nat) :
    Except String (WebFetchResult × Cache) :=
  match cacheGet c token with
  | none => .error "Continuation token expired or invalid."
  | some cached =>
      let result := truncateMarkdown cached.markdown maxChars cached.offset
      if result.hasMore then
        let nextToken := generateCacheKey cached.url "continuation" result.nextOffset now
        let c' := cacheSet c nextToken
          ⟨cached.markdown, result.nextOffset, cached.url, cached.title, cached.method, now⟩
        .ok (⟨cached.title, cached.url, result.markdown, none, some nextToken,
          cached.method⟩, c')
      else
        .ok (⟨cached.title, cached.url, result.markdown, none, none, cached.method⟩, c)

/-! ### Tail of `fetchWebPage` after extraction (lines 338-387) -/

/-- Lines 341-351: the fragment to convert is the filtered HTML only when
selectors were supplied, the filter reported no error, and it actually
matched; otherwise the full extracted fragment. -/
def filterStage (extractedHtml : List Char) (allHeadings : List Heading)
    (headingSelectors : Option (List Selector)) : List Char :=
  match headingSelectors with
  | none => extractedHtml
  | some ts =>
      if ts.length > 0 then
        let fr := filterContentByHeadings extractedHtml allHeadings ts
        if fr.error = none ∧ fr.filtered then fr.html else extractedHtml
      else extractedHtml

/-- Transcription of the post-extraction tail of `fetchWebPage`
(lines 338-387).  `convert` is the opaque HTML-to-markdown converter
(`turndownService.turndown`); `extractedHtml`, `title` and `method` are the
extractor's output; `now` stands for `Date.now()`.  A continuation entry is
stored only when the truncation left more content AND the fragment
contained no headings at all (`allHeadings.length === 0`), and it stores
the conversion of the unfiltered fragment. -/
def finishFetch (convert : List Char → List Char) (extractedHtml : List Char)
    (title : String) (method : String) (headingSelectors : Option (List Selector))
    (maxChars : Nat) (url : String) (now : Nat) (cache : Cache) :
    WebFetchResult × Cache :=
  let allHeadings := extractHeadings extractedHtml
  let toc := buildTOC allHeadings
  let markdown0 := convert (filterStage extractedHtml allHeadings headingSelectors)
  let tr := truncateMarkdown markdown0 maxChars 0
  if tr.hasMore ∧ allHeadings = [] then
    let tok := generateCacheKey url "continuation" tr.nextOffset now
    let c' := cacheSet cache tok
      ⟨convert extractedHtml, tr.nextOffset, url, title, method, now⟩
    (⟨title, url, tr.markdown, toc, some tok, method⟩, c')
  else
    (⟨title, url, tr.markdown, toc, none, method⟩, cache)

/-! ### URL Normalizer: `convertGithubToRaw` (lines 81-98) -/

/-- Index of the first occurrence of `pat` in `l`, if any. -/
def indexOfSub (pat : List Char) : List Char → Option Nat
  | [] => if pat.isPrefixOf [] then some 0 else none
  | c :: t =>
      if pat.isPrefixOf (c :: t) then some 0
      else (indexOfSub pat t).map (· + 1)

/-- JavaScript `String.prototype.split(sep)` for a single-character
separator. -/
def splitOnChar (sep : Char) : List Char → List (List Char)
  | [] => [[]]
  | c :: t =>
      if c = sep then [] :: splitOnChar sep t
      else
        match splitOnChar sep t with
        | [] => [[c]]
        | h :: r => (c :: h) :: r

/-- Simplified model of the platform WHATWG URL parser (`new URL(...)`),
covering `scheme://host[:port]/path` shapes: returns `(hostname, pathname)`
or `none` for strings it cannot parse (where the platform constructor
throws).  Userinfo, query/fragment separation, percent-decoding and host
normalisation are not modelled; every URL in the claims is of the simple
shape. -/
def parseUrl (url : String) : Option (String × String) :=
  match indexOfSub "://".toList url.toList with
  | none => none
  | some i =>
      let cs := url.toList
      let scheme := cs.take i
      let rest := cs.drop (i + 3)
      let hostport := rest.takeWhile (fun c => c ≠ '/' ∧ c ≠ ':')
      let path := (rest.drop hostport.length).dropWhile (fun c => c ≠ '/')
      if scheme = [] ∨ hostport = [] then none
      else some (String.mk hostport, String.mk path)

/-- `Array.prototype.join('/')`. -/
def joinSlash : List (List Char) → List Char
  | [] => []
  | [x] => x
  | x :: xs => x ++ '/' :: joinSlash xs

/-- Transcription of `convertGithubToRaw`: on a parse failure the `catch`
returns the input; a `github.com` URL whose path segments (split on `'/'`,
empty segments dropped) are `user / repo / "blob" / branch / rest...` is
rewritten to the `raw.githubusercontent.com` form; anything else is
returned unchanged. -/
def convertGithubToRaw (url : String) : String :=
  match parseUrl url with
  | none => url
  | some (host, pathname) =>
      if host = "github.com" then
        let parts := (splitOnChar '/' pathname.toList).filter (fun s => s ≠ [])
        match parts with
        | user :: repo :: seg :: branch :: rest =>
            if seg = "blob".toList then
              String.mk ("https://raw.githubusercontent.com/".toList ++ user ++
                '/' :: repo ++ '/' :: branch ++ '/' :: joinSlash rest)
            else url
        | _ => url
      else url

/-! ### Request dispatch: head of `fetchWebPage` (lines 227-263) -/

/-- The request options object.  `fetchImpl` is an injected capability; only
its presence matters before I/O, modelled as `hasFetchImpl` (the default
`globalThis.fetch` counts as present). -/
structure WebFetchOptions where
  url : Option String
  maxChars : Option Nat
  headings : Option (List Selector)
  continuationToken : Option String
  timeoutMs : Option Nat
  userAgent : Option String
  maxBodySizeBytes : Option Nat
  hasFetchImpl : Bool
  deriving DecidableEq

def DEFAULT_MAX_CHARS : Nat := 10000
def MAX_CHARS_LIMIT : Nat := 200000
def DEFAULT_MAX_BODY_SIZE : Nat := 10 * 1024 * 1024
def DEFAULT_TIMEOUT_MS : Nat := 15000
def DEFAULT_USER_AGENT : String :=
  "Mozilla/5.0 (compatible; WebFetch/1.0; +https://github.com/qduc/term2)"

instance {ε α : Type} [DecidableEq ε] [DecidableEq α] : DecidableEq (Except ε α) :=
  fun a b =>
    match a, b with
    | .ok x, .ok y =>
        if h : x = y then .isTrue (congrArg Except.ok h)
        else .isFalse (fun hh => h (Except.ok.inj hh))
    | .error x, .error y =>
        if h : x = y then .isTrue (congrArg Except.error h)
        else .isFalse (fun hh => h (Except.error.inj hh))
    | .ok _, .error _ => .isFalse (fun hh => Except.noConfusion hh)
    | .error _, .ok _ => .isFalse (fun hh => Except.noConfusion hh)

/-- What `fetchWebPage` does before any network I/O: either delegates to
`handleContinuation`, fails a synchronous validation check, or reaches the
single transport call (modelled as the `netFetch` step recording the
effective URL and transport options). -/
inductive FetchStep where
  | contin (r : Except String (WebFetchResult × Cache))
  | err (msg : String)
  | netFetch (effectiveUrl : String) (timeoutMs : Nat) (userAgent : String)
      (maxBodySizeBytes : Nat) (maxChars : Nat)
  deriving DecidableEq

/-- Transcription of lines 230-263 of `fetchWebPage`: destructuring
defaults, the truthiness test on `continuationToken` (an empty string is
falsy), the `URL is required` / missing-fetch / `maxChars` range checks in
source order, then the transport call on `convertGithubToRaw(url)`. -/
def fetchDispatch (opts : WebFetchOptions) (cache : Cache) (now : Nat) : FetchStep :=
  let maxChars := opts.maxChars.getD DEFAULT_MAX_CHARS
  let continuationToken := opts.continuationToken.getD ""
  let url := opts.url.getD ""
  let timeoutMs := opts.timeoutMs.getD DEFAULT_TIMEOUT_MS
  let userAgent := opts.userAgent.getD DEFAULT_USER_AGENT
  let maxBodySizeBytes := opts.maxBodySizeBytes.getD DEFAULT_MAX_BODY_SIZE
  if continuationToken ≠ "" then
    .contin (handleContinuation cache continuationToken maxChars now)
  else if url = "" then
    .err "URL is required for initial fetch."
  else if ¬ opts.hasFetchImpl then
    .err "Fetch implementation is not available."
  else if maxChars < 200 ∨ maxChars > MAX_CHARS_LIMIT then
    .err "maxChars must be between 200 and 200000."
  else
    .netFetch (convertGithubToRaw url) timeoutMs userAgent maxBodySizeBytes maxChars

/-! ### Specification-side definitions

These definitions follow the wording of the specification (and of the
claims under scrutiny) rather than the source text; the refinement
theorems below compare them with the transcribed code. -/

/-- First element of a list or a default (used for "the next heading in
document order"). -/
def headOr (l : List Nat) (dflt : Nat) : Nat :=
  match l with
  | [] => dflt
  | x :: _ => x

/-- Claim C5's selector resolution: a numeric selector `n` names the
heading at index `n - 1` (when that index exists); a text selector names
the first heading whose text contains the selector case-insensitively. -/
def resolveSelector (headings : List Heading) : Selector → Option Nat
  | .num n => if 1 ≤ n ∧ n ≤ (headings.length : Int) then some (n - 1).toNat else none
  | .str s => jsFindIndex (fun h => containsSub (lowerList s) (lowerList h.text)) headings

/-- Claim C5's section span for the heading at index `i`: from its position
up to the position of the next heading in document order (i.e. the one
with the smallest position) among those lying beyond it with level at most
the matched heading's level, or to the end of the document if none. -/
def sectionSpan (html : List Char) (headings : List Heading) (i : Nat) : List Char :=
  match headings[i]? with
  | none => []
  | some hd =>
      let cut := ((headings.filter
        (fun h => hd.position < h.position ∧ h.level ≤ hd.level)).map
          (fun h => h.position)).foldr min html.length
      jsSubstring html hd.position cut

/-- Removes the truncation marker from the end of a chunk, if present. -/
def stripMarkerEnd (l : List Char) : List Char :=
  if l.drop (l.length - truncMarker.length) = truncMarker then
    l.take (l.length - truncMarker.length)
  else l

/-- The pagination chain of claim C4: starting at `off`, repeatedly apply
`truncateMarkdown` until no more content remains (exactly what the
fetch-then-continue loop does to the stored markdown).  Each step records
the emitted chunk with its marker removed, paired with the untrimmed
window of the text that the step consumed. -/
def paginate : Nat → List Char → Nat → Nat → List (List Char × List Char)
  | 0, _, _, _ => []
  | fuel + 1, text, mc, off =>
      let r := truncateMarkdown text mc off
      if r.hasMore then
        (stripMarkerEnd r.markdown, jsSubstring text off r.nextOffset) ::
          paginate fuel text mc r.nextOffset
      else [(r.markdown, text.drop off)]

/-- The full pagination chain from offset 0 (fuel `length + 1` is always
enough because every truncated step advances the offset). -/
def paginateAll (text : List Char) (mc : Nat) : List (List Char × List Char) :=
  paginate (text.length + 1) text mc 0

/-- Claim C6's reading of the URL normalizer, phrased as in the spec: if
the host is the known code-hosting domain and the path has the shape
`/{user}/{repo}/blob/{branch}/{path...}`, produce the raw-content URL
(the `blob` segment removed); otherwise, including on a parse failure,
return the input unchanged. -/
def convertGithubToRawSpec (url : String) : String :=
  match parseUrl url with
  | none => url
  | some (host, pathname) =>
      let parts := (splitOnChar '/' pathname.toList).filter (fun s => s ≠ [])
      if host = "github.com" ∧ 4 ≤ parts.length ∧ parts[2]? = some "blob".toList then
        String.mk ("https://raw.githubusercontent.com/".toList ++
          (parts[0]?.getD []) ++ '/' :: (parts[1]?.getD []) ++
          '/' :: (parts[3]?.getD []) ++ '/' :: joinSlash (parts.drop 4))
      else url

/-- The Continuation Store invariant of claim C9:
`0 <= offset <= length(fullMarkdown)` for every entry (`0 <=` is inherent
to the `Nat` model). -/
def CacheInv (c : Cache) : Prop :=
  ∀ kv ∈ c, kv.2.offset ≤ kv.2.markdown.length

/-! ### Concrete runs used by the counterexamples and witnesses -/

/-- Extracts the payload of a successful continuation call (the error case
never occurs in the concrete runs below and maps to a dummy value). -/
def exceptGet (x : Except String (WebFetchResult × Cache)) : WebFetchResult × Cache :=
  match x with
  | .ok p => p
  | .error _ => (⟨"", "", [], none, none, ""⟩, [])

/-- A document with a single heading whose converted markdown is far larger
than the budget (for claim C1). -/
def demoHeadedHtml : List Char :=
  "<h1>T</h1>".toList ++ List.replicate 300 'x'

/-- A heading-free document of 401 characters whose only newline sits
exactly at the first chunk boundary (for claim C4). -/
def demoDoc : List Char :=
  List.replicate 200 'a' ++ '\n' :: List.replicate 200 'b'

/-- Initial fetch of `demoDoc` with `maxChars = 200` (identity converter,
no heading selectors), at time 0 against an empty store. -/
def demoFetch1 : WebFetchResult × Cache :=
  finishFetch (fun s => s) demoDoc "Long Page" "basic-clean" none 200 "https://e.com/long" 0 []

/-- First continuation of `demoFetch1` (token minted at offset 200). -/
def demoFetch2 : WebFetchResult × Cache :=
  exceptGet (handleContinuation demoFetch1.2 "https://e.com/long:continuation:200:0" 200 1)

/-- Second continuation, reaching the end of the document. -/
def demoFetch3 : WebFetchResult × Cache :=
  exceptGet (handleContinuation demoFetch2.2 "https://e.com/long:continuation:400:1" 200 2)

/-- A single fetch of the same document with the budget at its maximum
in-range value (an unbounded budget for this document). -/
def demoFetchFull : WebFetchResult × Cache :=
  finishFetch (fun s => s) demoDoc "Long Page" "basic-clean" none 200000 "https://e.com/long" 0 []

/-- A store holding one paused pagination state under the key "tok"
(for claims C2, C8 and C9). -/
def demoCache : Cache :=
  [("tok", ⟨List.replicate 450 'a', 0, "https://e.com/x", "X", "readability", 0⟩)]

/-- A small ordered heading list over the seven-character fragment
"AABBBCC" (for claim C5's witness). -/
def demoHeadings : List Heading :=
  [⟨1, "Alpha".toList, 0⟩, ⟨2, "Beta".toList, 2⟩, ⟨1, "Gamma".toList, 5⟩]

/-! ## Lemmas about the Paginator -/

theorem lastNlAux_le (l : List Char) : ∀ (i pos : Nat) (best : Option Nat) (L : Nat),
    (∀ b, best = some b → b ≤ pos ∧ b < i) →
    lastNlAux l i pos best = some L → L ≤ pos ∧ L < i + l.length := by
  induction l with
  | nil =>
      intro i pos best L hinv h
      simp only [lastNlAux] at h
      have := hinv L h
      simp only [List.length_nil]
      omega
  | cons c t ih =>
      intro i pos best L hinv h
      simp only [lastNlAux] at h
      by_cases hip : i ≤ pos
      · rw [if_pos hip] at h
        have hrec := ih (i + 1) pos (if c = '\n' then some i else best) L ?_ h
        · simp only [List.length_cons]
          omega
        · intro b hb
          by_cases hc : c = '\n'
          · rw [if_pos hc] at hb
            cases hb
            omega
          · rw [if_neg hc] at hb
            have := hinv b hb
            omega
      · rw [if_neg hip] at h
        have := hinv L h
        simp only [List.length_cons]
        omega

theorem lastNewlineIdx_bounds {l : List Char} {pos L : Nat}
    (h : lastNewlineIdx l pos = some L) : L ≤ pos ∧ L < l.length := by
  have := lastNlAux_le l 0 pos none L (by intro b hb; simp at hb) h
  omega

theorem length_dropWhile_le (p : Char → Bool) (l : List Char) :
    (l.dropWhile p).length ≤ l.length := by
  induction l with
  | nil => simp [List.dropWhile]
  | cons c t ih =>
      simp only [List.dropWhile]
      split
      · simp only [List.length_cons]
        omega
      · simp

theorem trimList_length_le (l : List Char) : (trimList l).length ≤ l.length := by
  unfold trimList
  rw [List.length_reverse]
  calc ((l.dropWhile Char.isWhitespace).reverse.dropWhile Char.isWhitespace).length
      ≤ (l.dropWhile Char.isWhitespace).reverse.length := length_dropWhile_le _ _
    _ = (l.dropWhile Char.isWhitespace).length := List.length_reverse _
    _ ≤ l.length := length_dropWhile_le _ _

theorem jsSubstring_eq {l : List Char} {a b : Nat} (hab : a ≤ b) (hb : b ≤ l.length) :
    jsSubstring l a b = (l.drop a).take (b - a) := by
  simp only [jsSubstring]
  have h1 : min (min a l.length) (min b l.length) = a := by omega
  rw [h1]
  have h2 : max (min a l.length) (min b l.length) - a = b - a := by omega
  rw [h2]

theorem jsSubstring_clamp (l : List Char) (a b : Nat) :
    jsSubstring l a b = jsSubstring l a (min b l.length) := by
  simp only [jsSubstring]
  have ht : max (min a l.length) (min b l.length) - min (min a l.length) (min b l.length)
      = max (min a l.length) (min (min b l.length) l.length) -
        min (min a l.length) (min (min b l.length) l.length) := by omega
  rw [ht]
  have hd : min (min a l.length) (min b l.length)
      = min (min a l.length) (min (min b l.length) l.length) := by omega
  rw [hd]

theorem truncateMarkdown_of_ge (text : List Char) (mc off : Nat)
    (h : text.length ≤ off) : truncateMarkdown text mc off = ⟨[], false, off, none⟩ := by
  unfold truncateMarkdown
  rw [if_pos h]

theorem truncateMarkdown_of_fits (text : List Char) (mc off : Nat)
    (h1 : off < text.length) (h2 : text.length - off ≤ mc) :
    truncateMarkdown text mc off = ⟨text.drop off, false, text.length, none⟩ := by
  unfold truncateMarkdown
  rw [if_neg (by omega), if_pos h2]

theorem truncateMarkdown_of_more (text : List Char) (mc off : Nat)
    (h1 : off < text.length) (h2 : mc < text.length - off) :
    ∃ e, truncateMarkdown text mc off =
        ⟨trimList (jsSubstring text off e) ++ truncMarker, true, e, some text.length⟩ ∧
      off ≤ e ∧ e ≤ off + mc ∧ e < text.length ∧ (1 ≤ mc → off < e) := by
  unfold truncateMarkdown
  rw [if_neg (by omega), if_neg (by omega)]
  rcases hL : lastNewlineIdx text (off + mc) with _ | L
  · refine ⟨off + mc, ?_, by omega, by omega, by omega, by omega⟩
    simp only [hL]
  · have hb := lastNewlineIdx_bounds hL
    by_cases hgt : 5 * L > 5 * off + 4 * mc
    · refine ⟨L, ?_, by omega, by omega, by omega, by omega⟩
      simp only [hL, if_pos hgt]
    · refine ⟨off + mc, ?_, by omega, by omega, by omega, by omega⟩
      simp only [hL, if_neg hgt]

/-- C3: for every text, budget and start offset, `truncateMarkdown` returns
at most `maxChars` characters before the truncation marker (the
newline-aligned cut `nextOffset` never moves past `offset + maxChars`),
and `hasMore` is `false` exactly when the returned slice reaches the end
of the input text. -/
theorem truncateMarkdown_bounds (text : List Char) (mc off : Nat) :
    ((truncateMarkdown text mc off).hasMore = true →
      ∃ body, (truncateMarkdown text mc off).markdown = body ++ truncMarker ∧
        body.length ≤ mc ∧ (truncateMarkdown text mc off).nextOffset ≤ off + mc) ∧
    ((truncateMarkdown text mc off).hasMore = false →
      (truncateMarkdown text mc off).markdown.length ≤ mc) ∧
    ((truncateMarkdown text mc off).hasMore = false ↔
      text.length ≤ (truncateMarkdown text mc off).nextOffset) := by
  by_cases h1 : text.length ≤ off
  · rw [truncateMarkdown_of_ge text mc off h1]
    refine ⟨?_, ?_, ?_⟩
    · intro h
      simp at h
    · intro _
      simp
    · simpa using h1
  · by_cases h2 : text.length - off ≤ mc
    · rw [truncateMarkdown_of_fits text mc off (by omega) h2]
      refine ⟨?_, ?_, ?_⟩
      · intro h
        simp at h
      · intro _
        simp only [List.length_drop]
        omega
      · simp
    · obtain ⟨e, heq, he1, he2, he3, _⟩ := truncateMarkdown_of_more text mc off (by omega) (by omega)
      rw [heq]
      refine ⟨?_, ?_, ?_⟩
      · intro _
        refine ⟨trimList (jsSubstring text off e), rfl, ?_, he2⟩
        calc (trimList (jsSubstring text off e)).length
            ≤ (jsSubstring text off e).length := trimList_length_le _
          _ ≤ mc := by
              rw [jsSubstring_eq he1 (by omega)]
              have := List.length_take_le (e - off) (text.drop off)
              omega
      · intro h
        simp at h
      · simp
        omega

/-- Witness for C3 at a concrete truncated input. -/
theorem truncateMarkdown_bounds_witness :
    ∃ body, (truncateMarkdown ("hello world".toList) 5 0).markdown = body ++ truncMarker ∧
      body.length ≤ 5 ∧ (truncateMarkdown ("hello world".toList) 5 0).nextOffset ≤ 0 + 5 :=
  (truncateMarkdown_bounds ("hello world".toList) 5 0).1 (by decide)

/-! ## C7: unknown continuation tokens fail loudly -/

/-- C7: a continuation whose token is not in the store fails with the
explicit "expired or invalid" error; no silent empty result is possible,
so end-of-document (a successful response with a `none` token) remains
distinguishable from a broken token. -/
theorem handleContinuation_unknown_token_error (c : Cache) (token : String)
    (mc now : Nat) (h : cacheGet c token = none) :
    handleContinuation c token mc now =
      .error "Continuation token expired or invalid." := by
  unfold handleContinuation
  rw [h]

/-- Witness for C7: an empty store rejects any token. -/
theorem handleContinuation_unknown_token_error_witness :
    cacheGet [] "zzz" = none ∧
    handleContinuation [] "zzz" 500 3 =
      .error "Continuation token expired or invalid." :=
  ⟨rfl, handleContinuation_unknown_token_error [] "zzz" 500 3 rfl⟩

/-! ## C1: when an initial fetch carries a continuation token -/

/-- C1 (amended): on an initial fetch the result's `continuationToken` is
`null` iff the truncation left no more content or the extracted fragment
contains at least one heading — the source disables continuation whenever
`extractHeadings` found anything (`allHeadings.length === 0`), regardless
of whether heading-filtering was requested or applied. -/
theorem finishFetch_token_none_iff (convert : List Char → List Char)
    (extractedHtml : List Char) (title method : String)
    (sel : Option (List Selector)) (mc : Nat) (url : String) (now : Nat)
    (cache : Cache) :
    (finishFetch convert extractedHtml title method sel mc url now cache).1.continuationToken
        = none ↔
      ((truncateMarkdown
          (convert (filterStage extractedHtml (extractHeadings extractedHtml) sel))
          mc 0).hasMore = false ∨
        extractHeadings extractedHtml ≠ []) := by
  simp only [finishFetch]
  split
  · next h =>
      constructor
      · intro hh
        exact absurd hh (by simp)
      · intro hh
        rcases hh with hh | hh
        · rw [h.1] at hh
          exact absurd hh (by simp)
        · exact absurd h.2 hh
  · next h =>
      simp only [not_and] at h
      by_cases hm : (truncateMarkdown
          (convert (filterStage extractedHtml (extractHeadings extractedHtml) sel))
          mc 0).hasMore = true
      · simp [hm, h hm]
      · simp only [Bool.not_eq_true] at hm
        simp [hm]

/-- Counterexample to C1 as stated: an unfiltered initial fetch whose
converted markdown (301 characters, identity converter, no selectors)
exceeds `maxChars = 200` and whose fragment contains one heading yields a
`null` continuation token, where the claim demands a non-null one. -/
theorem finishFetch_heading_blocks_token :
    (finishFetch (fun s => s) demoHeadedHtml "T" "basic-clean" none 200 "u" 0
        []).1.continuationToken = none ∧
    200 < demoHeadedHtml.length ∧
    (truncateMarkdown demoHeadedHtml 200 0).hasMore = true ∧
    extractHeadings demoHeadedHtml = [⟨1, ['T'], 0⟩] := by
  decide

/-! ## C2: where the maxChars range check applies -/

/-- C2 (amended): the `maxChars ∈ [200, 200000]` validation applies only to
initial fetches (requests without a truthy continuation token): for those
an out-of-range budget fails synchronously, before the transport step is
reached.  Continuation requests return earlier and never see this check. -/
theorem maxChars_validated_on_initial_fetch (opts : WebFetchOptions)
    (cache : Cache) (now : Nat)
    (htok : opts.continuationToken.getD "" = "")
    (hurl : opts.url.getD "" ≠ "")
    (hfetch : opts.hasFetchImpl = true)
    (hmc : opts.maxChars.getD DEFAULT_MAX_CHARS < 200 ∨
      opts.maxChars.getD DEFAULT_MAX_CHARS > MAX_CHARS_LIMIT) :
    fetchDispatch opts cache now = .err "maxChars must be between 200 and 200000." := by
  simp only [fetchDispatch]
  rw [if_neg (by simp [htok]), if_neg hurl, if_neg (by simp [hfetch]), if_pos hmc]

/-- Witness for the amended C2 at a concrete out-of-range request. -/
theorem maxChars_validated_on_initial_fetch_witness :
    fetchDispatch ⟨some "https://e.com/", some 5, none, none, none, none, none, true⟩ [] 0
      = .err "maxChars must be between 200 and 200000." :=
  maxChars_validated_on_initial_fetch
    ⟨some "https://e.com/", some 5, none, none, none, none, none, true⟩ [] 0
    (by decide) (by decide) (by decide) (by decide)

/-- Counterexample to C2 as stated: a continuation request with
`maxChars = 5` (far below 200) against a store holding its token does not
fail with a validation error — it returns a successful result. -/
theorem continuation_bypasses_maxChars_validation :
    (5 < 200) ∧
    ((match fetchDispatch ⟨none, some 5, none, some "tok", none, none, none, false⟩
        demoCache 9 with
      | .contin (.ok _) => true
      | _ => false) = true) := by
  constructor
  · decide
  · decide

/-! ## C10: requests carrying both a url and a continuation token -/

/-- C10 (amended): when a request carries a *non-empty* continuation token,
`fetchWebPage` behaves exactly as if only the token had been provided: the
dispatch is the pure continuation lookup, and `url`, `timeoutMs`,
`userAgent` and `maxBodySizeBytes` have no effect (the right-hand sides
mention none of them). -/
theorem continuation_request_ignores_url (opts : WebFetchOptions)
    (cache : Cache) (now : Nat) (t : String)
    (ht : opts.continuationToken = some t) (hne : t ≠ "") :
    fetchDispatch opts cache now =
      .contin (handleContinuation cache t (opts.maxChars.getD DEFAULT_MAX_CHARS) now) ∧
    fetchDispatch opts cache now =
      fetchDispatch ⟨none, opts.maxChars, none, some t, none, none, none, false⟩
        cache now := by
  constructor
  · simp only [fetchDispatch, ht, Option.getD_some]
    rw [if_pos hne]
  · simp only [fetchDispatch, ht, Option.getD_some]
    rw [if_pos hne, if_pos hne]

/-- Witness for the amended C10: a request with both a url and the token
"tok" dispatches identically to the token-only request. -/
theorem continuation_request_ignores_url_witness :
    fetchDispatch ⟨some "https://other.com/", some 300, none, some "tok", some 1, some "UA",
        some 7, true⟩ demoCache 4 =
      .contin (handleContinuation demoCache "tok" 300 4) ∧
    fetchDispatch ⟨some "https://other.com/", some 300, none, some "tok", some 1, some "UA",
        some 7, true⟩ demoCache 4 =
      fetchDispatch ⟨none, some 300, none, some "tok", none, none, none, false⟩ demoCache 4 :=
  continuation_request_ignores_url
    ⟨some "https://other.com/", some 300, none, some "tok", some 1, some "UA", some 7, true⟩
    demoCache 4 "tok" rfl (by decide)

/-- Counterexample to C10 as stated: with the (provided but empty) token
`""` and a url, the request performs the network fetch of the url, while
the same request without the url fails with the missing-URL error — not
the behavior of a continuation in either case. -/
theorem empty_token_with_url_not_continuation :
    fetchDispatch ⟨some "https://example.com/x", none, none, some "", none, none, none,
        true⟩ [] 0 =
      .netFetch "https://example.com/x" DEFAULT_TIMEOUT_MS DEFAULT_USER_AGENT
        DEFAULT_MAX_BODY_SIZE DEFAULT_MAX_CHARS ∧
    fetchDispatch ⟨none, none, none, some "", none, none, none, true⟩ [] 0 =
      .err "URL is required for initial fetch." ∧
    fetchDispatch ⟨some "https://example.com/x", none, none, some "", none, none, none,
        true⟩ [] 0 ≠
      fetchDispatch ⟨none, none, none, some "", none, none, none, true⟩ [] 0 := by
  refine ⟨by decide, by decide, by decide⟩

/-! ## C4: the continuation round-trip -/

theorem stripMarkerEnd_append (b : List Char) :
    stripMarkerEnd (b ++ truncMarker) = b := by
  unfold stripMarkerEnd
  have hlen : (b ++ truncMarker).length - truncMarker.length = b.length := by
    rw [List.length_append]
    omega
  rw [hlen, List.drop_left, if_pos rfl, List.take_left]

theorem paginate_flatten : ∀ (fuel : Nat) (text : List Char) (mc off : Nat), 1 ≤ mc →
    text.length ≤ off + fuel →
    ((paginate fuel text mc off).map Prod.snd).flatten = text.drop off := by
  intro fuel
  induction fuel with
  | zero =>
      intro text mc off _ hf
      simp only [paginate, List.map_nil, List.flatten_nil]
      exact (List.drop_eq_nil_of_le (by omega)).symm
  | succ n ih =>
      intro text mc off hmc hf
      by_cases h1 : text.length ≤ off
      · simp only [paginate]
        rw [truncateMarkdown_of_ge text mc off h1]
        simp [List.drop_eq_nil_of_le h1]
      · by_cases h2 : text.length - off ≤ mc
        · simp only [paginate]
          rw [truncateMarkdown_of_fits text mc off (by omega) h2]
          simp
        · obtain ⟨e, heq, he1, he2, he3, hprog⟩ :=
            truncateMarkdown_of_more text mc off (by omega) (by omega)
          simp only [paginate]
          rw [heq, if_pos rfl]
          simp only [List.map_cons, List.flatten_cons]
          rw [ih text mc e hmc (by have := hprog hmc; omega)]
          rw [jsSubstring_eq he1 (le_of_lt he3)]
          have hd : text.drop e = (text.drop off).drop (e - off) := by
            rw [List.drop_drop]
            congr 1
            omega
          rw [hd, List.take_append_drop]

theorem paginate_mem : ∀ (fuel : Nat) (text : List Char) (mc off : Nat),
    ∀ p ∈ paginate fuel text mc off, p.1 = trimList p.2 ∨ p.1 = p.2 := by
  intro fuel
  induction fuel with
  | zero =>
      intro text mc off p hp
      simp [paginate] at hp
  | succ n ih =>
      intro text mc off p hp
      by_cases h1 : text.length ≤ off
      · simp only [paginate] at hp
        rw [truncateMarkdown_of_ge text mc off h1] at hp
        simp at hp
        right
        rw [hp]
        exact (List.drop_eq_nil_of_le h1).symm
      · by_cases h2 : text.length - off ≤ mc
        · simp only [paginate] at hp
          rw [truncateMarkdown_of_fits text mc off (by omega) h2] at hp
          simp at hp
          right
          rw [hp]
        · obtain ⟨e, heq, _, _, _, _⟩ :=
            truncateMarkdown_of_more text mc off (by omega) (by omega)
          simp only [paginate] at hp
          rw [heq, if_pos rfl] at hp
          simp only [List.mem_cons] at hp
          rcases hp with hp | hp
          · left
            rw [hp]
            exact stripMarkerEnd_append _
          · exact ih text mc e p hp

/-- C4 (amended): the pagination chain visits the whole document exactly —
the untrimmed windows consumed by the successive `truncateMarkdown` calls
concatenate to the markdown of an unbounded fetch — but each truncated
chunk is emitted whitespace-trimmed (its body, after removing the marker,
is the `trim` of its window), so the concatenation of the *emitted* chunks
equals the full markdown only up to whitespace dropped at the chunk
boundaries. -/
theorem paginate_exact_cover (text : List Char) (mc : Nat) (hmc : 1 ≤ mc) :
    ((paginateAll text mc).map Prod.snd).flatten = text ∧
    ∀ p ∈ paginateAll text mc, p.1 = trimList p.2 ∨ p.1 = p.2 := by
  constructor
  · have := paginate_flatten (text.length + 1) text mc 0 hmc (by omega)
    simpa using this
  · exact paginate_mem (text.length + 1) text mc 0

/-- Witness for the amended C4 on the 401-character demo document. -/
theorem paginate_exact_cover_witness :
    ((paginateAll demoDoc 200).map Prod.snd).flatten = demoDoc :=
  (paginate_exact_cover demoDoc 200 (by decide)).1

/-- Counterexample to C4 as stated: paginating the 401-character demo
document with the in-range budget 200 — one initial fetch and two
continuations, the last returning a `null` token — and concatenating the
chunks with their truncation markers removed loses the newline sitting at
the first chunk boundary (the chunks are trimmed), so the concatenation
differs from the markdown of the single unbounded fetch. -/
theorem roundtrip_loses_boundary_whitespace :
    demoFetch1.1.continuationToken = some "https://e.com/long:continuation:200:0" ∧
    (handleContinuation demoFetch1.2 "https://e.com/long:continuation:200:0" 200 1).isOk
      = true ∧
    demoFetch2.1.continuationToken = some "https://e.com/long:continuation:400:1" ∧
    (handleContinuation demoFetch2.2 "https://e.com/long:continuation:400:1" 200 2).isOk
      = true ∧
    demoFetch3.1.continuationToken = none ∧
    demoFetchFull.1.continuationToken = none ∧
    demoFetchFull.1.markdown = demoDoc ∧
    stripMarkerEnd demoFetch1.1.markdown ++ stripMarkerEnd demoFetch2.1.markdown ++
        stripMarkerEnd demoFetch3.1.markdown ≠ demoFetchFull.1.markdown := by
  refine ⟨by decide, by decide, by decide, by decide, by decide, by decide, by decide,
    by decide⟩

/-! ## Lemmas about the Continuation Store -/

theorem cacheGet_map_ne (k k' : String) (v : CacheEntry) (hne : k' ≠ k) :
    ∀ c : Cache,
      cacheGet (c.map (fun kv => if kv.1 = k then (k, v) else kv)) k' = cacheGet c k' := by
  intro c
  induction c with
  | nil => rfl
  | cons kv t ih =>
      by_cases hk : kv.1 = k
      · simp only [cacheGet, List.map_cons, if_pos hk] at ih ⊢
        rw [List.find?_cons_of_neg _ (by simp [Ne.symm hne]),
          List.find?_cons_of_neg _ (by simp [hk, Ne.symm hne])]
        exact ih
      · simp only [cacheGet, List.map_cons, if_neg hk] at ih ⊢
        by_cases hk' : kv.1 = k'
        · rw [List.find?_cons_of_pos _ (by simp [hk']),
            List.find?_cons_of_pos _ (by simp [hk'])]
        · rw [List.find?_cons_of_neg _ (by simp [hk']),
            List.find?_cons_of_neg _ (by simp [hk'])]
          exact ih

theorem cacheGet_append_ne (k k' : String) (v : CacheEntry) (hne : k' ≠ k) :
    ∀ c : Cache, cacheGet (c ++ [(k, v)]) k' = cacheGet c k' := by
  intro c
  induction c with
  | nil =>
      simp only [cacheGet, List.nil_append]
      rw [List.find?_cons_of_neg _ (by simp [Ne.symm hne])]
  | cons kv t ih =>
      by_cases hk' : kv.1 = k'
      · simp only [cacheGet, List.cons_append] at ih ⊢
        rw [List.find?_cons_of_pos _ (by simp [hk']),
          List.find?_cons_of_pos _ (by simp [hk'])]
      · simp only [cacheGet, List.cons_append] at ih ⊢
        rw [List.find?_cons_of_neg _ (by simp [hk']),
          List.find?_cons_of_neg _ (by simp [hk'])]
        exact ih

theorem cacheGet_set_ne (c : Cache) (k k' : String) (v : CacheEntry) (hne : k' ≠ k) :
    cacheGet (cacheSet c k v) k' = cacheGet c k' := by
  unfold cacheSet
  split
  · exact cacheGet_map_ne k k' v hne c
  · exact cacheGet_append_ne k k' v hne c

theorem cacheGet_map_self (k : String) (v : CacheEntry) :
    ∀ c : Cache, c.any (fun kv => kv.1 = k) = true →
      cacheGet (c.map (fun kv => if kv.1 = k then (k, v) else kv)) k = some v := by
  intro c
  induction c with
  | nil =>
      intro h
      simp at h
  | cons kv t ih =>
      intro h
      by_cases hk : kv.1 = k
      · simp only [cacheGet, List.map_cons, if_pos hk]
        rw [List.find?_cons_of_pos _ (by simp)]
        rfl
      · simp only [List.any_cons, hk] at h
        simp only [cacheGet, List.map_cons, if_neg hk] at ih ⊢
        rw [List.find?_cons_of_neg _ (by simp [hk])]
        exact ih (by simpa using h)

theorem cacheGet_append_self (k : String) (v : CacheEntry) :
    ∀ c : Cache, ¬ c.any (fun kv => kv.1 = k) = true →
      cacheGet (c ++ [(k, v)]) k = some v := by
  intro c
  induction c with
  | nil =>
      intro _
      simp only [cacheGet, List.nil_append]
      rw [List.find?_cons_of_pos _ (by simp)]
      rfl
  | cons kv t ih =>
      intro h
      simp only [List.any_cons, Bool.or_eq_true, not_or] at h
      simp only [cacheGet, List.cons_append] at ih ⊢
      rw [List.find?_cons_of_neg _ (by simpa using h.1)]
      exact ih h.2

theorem cacheGet_set_self (c : Cache) (k : String) (v : CacheEntry) :
    cacheGet (cacheSet c k v) k = some v := by
  unfold cacheSet
  by_cases hany : c.any (fun kv => kv.1 = k) = true
  · rw [if_pos hany]
    exact cacheGet_map_self k v c hany
  · rw [if_neg hany]
    exact cacheGet_append_self k v c hany

theorem mem_cacheSet {c : Cache} {k : String} {v : CacheEntry}
    {kv : String × CacheEntry} (h : kv ∈ cacheSet c k v) : kv ∈ c ∨ kv = (k, v) := by
  unfold cacheSet at h
  split at h
  · obtain ⟨kv0, hkv0, heq⟩ := List.mem_map.mp h
    by_cases hk : kv0.1 = k
    · rw [if_pos hk] at heq
      right
      exact heq.symm
    · rw [if_neg hk] at heq
      left
      rw [← heq]
      exact hkv0
  · rcases List.mem_append.mp h with h | h
    · exact Or.inl h
    · simp only [List.mem_singleton] at h
      exact Or.inr h

theorem truncate_nextOffset_lt (text : List Char) (mc off : Nat)
    (h : (truncateMarkdown text mc off).hasMore = true) :
    (truncateMarkdown text mc off).nextOffset < text.length := by
  by_cases h1 : text.length ≤ off
  · rw [truncateMarkdown_of_ge text mc off h1] at h
    simp at h
  · by_cases h2 : text.length - off ≤ mc
    · rw [truncateMarkdown_of_fits text mc off (by omega) h2] at h
      simp at h
    · obtain ⟨e, heq, _, _, he3, _⟩ :=
        truncateMarkdown_of_more text mc off (by omega) (by omega)
      rw [heq]
      exact he3

theorem truncate_nextOffset_progress (text : List Char) (mc off : Nat) (hmc : 1 ≤ mc)
    (h : (truncateMarkdown text mc off).hasMore = true) :
    off < (truncateMarkdown text mc off).nextOffset := by
  by_cases h1 : text.length ≤ off
  · rw [truncateMarkdown_of_ge text mc off h1] at h
    simp at h
  · by_cases h2 : text.length - off ≤ mc
    · rw [truncateMarkdown_of_fits text mc off (by omega) h2] at h
      simp at h
    · obtain ⟨e, heq, _, _, _, hprog⟩ :=
        truncateMarkdown_of_more text mc off (by omega) (by omega)
      rw [heq]
      exact hprog hmc

/-! ## C8: token redemption does not consume the token -/

/-- C8 (amended): redeeming a continuation token does not consume it — the
presented entry is left untouched in the store (a continuation with
remaining content only *adds* a fresh entry, under a newly generated key
embedding a strictly advanced offset over the same full markdown), so the
same token can be redeemed again until expiry.  Stated for a fresh key
distinct from the presented token, which holds whenever keys embed
distinct offset/timestamp pairs. -/
theorem handleContinuation_not_consumed (c : Cache) (tok : String) (e : CacheEntry)
    (mc now : Nat) (hget : cacheGet c tok = some e) (hmc : 1 ≤ mc) :
    ∃ r c', handleContinuation c tok mc now = .ok (r, c') ∧
      (r.continuationToken = none → c' = c) ∧
      (∀ t', r.continuationToken = some t' → t' ≠ tok →
        cacheGet c' tok = some e ∧
        ∃ e', cacheGet c' t' = some e' ∧ e'.markdown = e.markdown ∧
          e.offset < e'.offset) := by
  unfold handleContinuation
  rw [hget]
  simp only []
  by_cases hm : (truncateMarkdown e.markdown mc e.offset).hasMore = true
  · rw [if_pos hm]
    refine ⟨_, _, rfl, ?_, ?_⟩
    · intro hnone
      simp at hnone
    · intro t' ht' hne
      simp only [Option.some_inj] at ht'
      subst ht'
      refine ⟨?_, ?_⟩
      · rw [cacheGet_set_ne _ _ _ _ hne.symm]
        exact hget
      · refine ⟨_, cacheGet_set_self _ _ _, rfl, ?_⟩
        exact truncate_nextOffset_progress e.markdown mc e.offset hmc hm
  · rw [if_neg hm]
    refine ⟨_, _, rfl, fun _ => rfl, ?_⟩
    intro t' ht'
    simp at ht'

/-- Witness for the amended C8 at the demo store. -/
theorem handleContinuation_not_consumed_witness :
    ∃ r c', handleContinuation demoCache "tok" 200 7 = .ok (r, c') := by
  obtain ⟨r, c', h, -, -⟩ :=
    handleContinuation_not_consumed demoCache "tok"
      ⟨List.replicate 450 'a', 0, "https://e.com/x", "X", "readability", 0⟩ 200 7
      (by decide) (by decide)
  exact ⟨r, c', h⟩

/-- Counterexample to C8 as stated: the token "tok" is redeemed
successfully twice in a row — the first redemption leaves the entry in the
store, and the second presentation of the very same token yields another
successful result with the same chunk. -/
theorem token_redeemable_twice :
    (handleContinuation demoCache "tok" 200 5).isOk = true ∧
    (handleContinuation (exceptGet (handleContinuation demoCache "tok" 200 5)).2
        "tok" 200 6).isOk = true ∧
    (exceptGet (handleContinuation (exceptGet (handleContinuation demoCache "tok" 200 5)).2
        "tok" 200 6)).1.markdown
      = (exceptGet (handleContinuation demoCache "tok" 200 5)).1.markdown := by
  refine ⟨by decide, by decide, by decide⟩

/-! ## C9: the store invariant -/

theorem filterStep_empty (html : List Char) (acc : List Char × Bool)
    (t : Selector) : filterStep html [] acc t = acc := by
  cases t with
  | num n =>
      simp only [filterStep, List.length_nil, Nat.cast_zero]
      rw [if_neg (by omega)]
  | str s =>
      simp only [filterStep, jsFindIndex, List.length_nil, Nat.cast_zero]
      rw [if_neg (by omega)]

theorem filter_empty_headings (html : List Char) (ts : List Selector) :
    (filterContentByHeadings html [] ts).filtered = false := by
  simp only [filterContentByHeadings]
  suffices h : ∀ acc : List Char × Bool,
      List.foldl (filterStep html []) acc ts = acc by
    rw [h ([], false)]
  intro acc
  induction ts generalizing acc with
  | nil => rfl
  | cons t ts ih =>
      rw [List.foldl_cons, filterStep_empty html acc t]
      exact ih acc

theorem filterStage_no_headings (html : List Char) (sel : Option (List Selector)) :
    filterStage html [] sel = html := by
  unfold filterStage
  cases sel with
  | none => rfl
  | some ts =>
      simp only []
      by_cases hl : ts.length > 0
      · rw [if_pos hl, if_neg]
        intro hcond
        have := filter_empty_headings html ts
        rw [this] at hcond
        exact absurd hcond.2 (by simp)
      · rw [if_neg hl]

/-- C9: every entry ever placed in the Continuation Store satisfies
`offset ≤ length(fullMarkdown)`, and every store operation — the background
expiry sweep, the administrative clear, the put performed by a truncated
initial fetch, and the lookup-and-add of a continuation call — preserves
the invariant for all remaining entries. -/
theorem cache_invariant_preserved (c : Cache) (hinv : CacheInv c) :
    (∀ now, CacheInv (cacheSweep now c)) ∧
    CacheInv clearWebFetchCache ∧
    (∀ (convert : List Char → List Char) (extractedHtml : List Char)
      (title method : String) (sel : Option (List Selector)) (mc : Nat)
      (url : String) (now : Nat),
      CacheInv (finishFetch convert extractedHtml title method sel mc url now c).2) ∧
    (∀ (tok : String) (mc now : Nat) (r : WebFetchResult) (c' : Cache),
      handleContinuation c tok mc now = .ok (r, c') → CacheInv c') := by
  refine ⟨?_, ?_, ?_, ?_⟩
  · intro now kv hkv
    exact hinv kv (List.mem_of_mem_filter hkv)
  · intro kv hkv
    simp [clearWebFetchCache] at hkv
  · intro convert extractedHtml title method sel mc url now
    simp only [finishFetch]
    split
    · next h =>
        intro kv hkv
        rcases mem_cacheSet hkv with hkv | hkv
        · exact hinv kv hkv
        · subst hkv
          have hfs : filterStage extractedHtml (extractHeadings extractedHtml) sel
              = extractedHtml := by
            rw [h.2]
            exact filterStage_no_headings extractedHtml sel
          have hm := h.1
          rw [hfs] at hm
          show (truncateMarkdown
              (convert (filterStage extractedHtml (extractHeadings extractedHtml) sel))
              mc 0).nextOffset ≤ (convert extractedHtml).length
          rw [hfs]
          exact le_of_lt (truncate_nextOffset_lt (convert extractedHtml) mc 0 hm)
    · next _ =>
        exact hinv
  · intro tok mc now r c' h
    unfold handleContinuation at h
    cases hget : cacheGet c tok with
    | none =>
        rw [hget] at h
        cases h
    | some cached =>
        rw [hget] at h
        simp only [] at h
        by_cases hm : (truncateMarkdown cached.markdown mc cached.offset).hasMore = true
        · rw [if_pos hm] at h
          have hc' : c' = cacheSet c
              (generateCacheKey cached.url "continuation"
                (truncateMarkdown cached.markdown mc cached.offset).nextOffset now)
              ⟨cached.markdown, (truncateMarkdown cached.markdown mc cached.offset).nextOffset,
                cached.url, cached.title, cached.method, now⟩ := by
            cases h
            rfl
          subst hc'
          intro kv hkv
          rcases mem_cacheSet hkv with hkv | hkv
          · exact hinv kv hkv
          · subst hkv
            exact le_of_lt (truncate_nextOffset_lt cached.markdown mc cached.offset hm)
        · rw [if_neg hm] at h
          have hc' : c' = c := by
            cases h
            rfl
          subst hc'
          exact hinv

/-- Witness for C9: the demo store satisfies the invariant and keeps it
through a sweep. -/
theorem cache_invariant_preserved_witness :
    CacheInv demoCache ∧ CacheInv (cacheSweep 301000 demoCache) :=
  ⟨by unfold CacheInv; decide,
    (cache_invariant_preserved demoCache (by unfold CacheInv; decide)).1 301000⟩

/-! ## C5: the Section Filter refines its specification -/

theorem jsFindIndex_lt_length (p : Heading → Bool) :
    ∀ (hs : List Heading) (i : Nat), jsFindIndex p hs = some i → i < hs.length := by
  intro hs
  induction hs with
  | nil =>
      intro i h
      simp [jsFindIndex] at h
  | cons hd t ih =>
      intro i h
      simp only [jsFindIndex] at h
      by_cases hp : p hd
      · rw [if_pos hp] at h
        simp only [Option.some_inj] at h
        simp only [List.length_cons]
        omega
      · rw [if_neg hp] at h
        cases hj : jsFindIndex p t with
        | none =>
            rw [hj] at h
            simp at h
        | some j =>
            rw [hj] at h
            simp at h
            have := ih j hj
            simp only [List.length_cons]
            omega

theorem nextBoundary_eq_head (lvl dflt : Nat) : ∀ tail : List Heading,
    nextBoundary tail lvl dflt =
      headOr ((tail.filter (fun h => h.level ≤ lvl)).map (fun h => h.position)) dflt := by
  intro tail
  induction tail with
  | nil => rfl
  | cons h t ih =>
      simp only [nextBoundary]
      by_cases hl : h.level ≤ lvl
      · rw [if_pos hl, List.filter_cons_of_pos (by simpa using hl), List.map_cons]
        rfl
      · rw [if_neg hl, List.filter_cons_of_neg (by simpa using hl)]
        exact ih

theorem foldr_min_sorted (dflt : Nat) :
    ∀ xs : List Nat, xs.Pairwise (· ≤ ·) →
      xs.foldr min dflt = min (headOr xs dflt) dflt := by
  intro xs
  induction xs with
  | nil =>
      intro _
      simp [headOr]
  | cons x t ih =>
      intro hp
      cases hp with
      | cons hx hp2 =>
          rw [List.foldr_cons, ih hp2]
          cases t with
          | nil =>
              simp only [headOr]
              omega
          | cons y t2 =>
              have hxy : x ≤ y := hx y (by simp)
              simp only [headOr]
              omega

theorem filter_pos_eq_drop (headings : List Heading) (i : Nat)
    (hi : i < headings.length) (hd : Heading) (hhd : headings[i] = hd)
    (hsort : headings.Pairwise (fun a b => a.position < b.position)) :
    headings.filter (fun h => hd.position < h.position ∧ h.level ≤ hd.level)
      = (headings.drop (i + 1)).filter (fun h => h.level ≤ hd.level) := by
  have hpw := List.pairwise_iff_getElem.mp hsort
  conv_lhs => rw [← List.take_append_drop (i + 1) headings]
  rw [List.filter_append]
  have h1 : (headings.take (i + 1)).filter
      (fun h => hd.position < h.position ∧ h.level ≤ hd.level) = [] := by
    rw [List.filter_eq_nil_iff]
    intro a ha
    obtain ⟨j, hj, hja⟩ := List.getElem_of_mem ha
    have hjle : j ≤ i := by
      simp only [List.length_take] at hj
      omega
    have hjl : j < headings.length := by omega
    have haj : a = headings[j] := by
      rw [← hja, List.getElem_take]
    have hple : a.position ≤ hd.position := by
      rcases Nat.lt_or_ge j i with hlt | hge
      · have hji := hpw j i hjl hi hlt
        rw [hhd] at hji
        rw [haj]
        omega
      · have hji : j = i := by omega
        subst hji
        rw [haj, hhd]
    simp only [decide_eq_true_eq, Bool.not_eq_true]
    intro hcon
    rcases hcon with ⟨hc1, _⟩
    omega
  rw [h1, List.nil_append]
  apply List.filter_congr
  intro a ha
  obtain ⟨j, hj, hja⟩ := List.getElem_of_mem ha
  have hjl2 : i + 1 + j < headings.length := by
    simp only [List.length_drop] at hj
    omega
  have haj : a = headings[i + 1 + j] := by
    rw [← hja, List.getElem_drop]
  have hlt : hd.position < a.position := by
    have hij := hpw i (i + 1 + j) hi hjl2 (by omega)
    rw [hhd] at hij
    rw [haj]
    exact hij
  simp [hlt]

theorem span_eq (html : List Char) (headings : List Heading) (i : Nat)
    (hi : i < headings.length)
    (hsort : headings.Pairwise (fun a b => a.position < b.position)) :
    jsSubstring html headings[i].position
        (nextBoundary (headings.drop (i + 1)) headings[i].level html.length)
      = sectionSpan html headings i := by
  unfold sectionSpan
  rw [List.getElem?_eq_getElem hi]
  simp only []
  rw [nextBoundary_eq_head]
  rw [filter_pos_eq_drop headings i hi headings[i] rfl hsort]
  have hpw : (((headings.drop (i + 1)).filter
      (fun h => h.level ≤ headings[i].level)).map
        (fun h => h.position)).Pairwise (· ≤ ·) := by
    rw [List.pairwise_map]
    have hs2 : ((headings.drop (i + 1)).filter
        (fun h => h.level ≤ headings[i].level)).Pairwise
          (fun a b => a.position < b.position) :=
      hsort.sublist ((List.filter_sublist _).trans (List.drop_sublist _ _))
    exact hs2.imp (fun h => le_of_lt h)
  rw [foldr_min_sorted html.length _ hpw]
  exact jsSubstring_clamp html headings[i].position _

theorem filterStep_resolved (html : List Char) (headings : List Heading)
    (hsort : headings.Pairwise (fun a b => a.position < b.position))
    (acc : List Char × Bool) (t : Selector) :
    (filterStep html headings acc t).1 =
      acc.1 ++ (match resolveSelector headings t with
        | some i => sectionSpan html headings i ++ '\n' :: '\n' :: []
        | none => []) := by
  cases t with
  | num n =>
      simp only [filterStep, resolveSelector]
      by_cases hcond : 0 ≤ (n - 1 : Int) ∧ (n - 1 : Int) < (headings.length : Int)
      · rw [if_pos hcond]
        have hidx : (n - 1 : Int).toNat < headings.length := by omega
        rw [List.getElem?_eq_getElem hidx]
        rw [if_pos (show 1 ≤ n ∧ n ≤ (headings.length : Int) by omega)]
        simp only []
        rw [span_eq html headings ((n - 1 : Int)).toNat hidx hsort, List.append_assoc]
      · rw [if_neg hcond]
        rw [if_neg (show ¬(1 ≤ n ∧ n ≤ (headings.length : Int)) by omega)]
        simp
  | str s =>
      simp only [filterStep, resolveSelector]
      cases hj : jsFindIndex
          (fun h => containsSub (lowerList s) (lowerList h.text)) headings with
      | none =>
          simp only []
          rw [if_neg (show ¬((0 : Int) ≤ -1 ∧ (-1 : Int) < (headings.length : Int))
            by omega)]
          simp
      | some i =>
          have hlen := jsFindIndex_lt_length _ headings i hj
          simp only []
          rw [if_pos (show (0 : Int) ≤ (i : Int) ∧ (i : Int) < (headings.length : Int)
            by omega)]
          rw [show ((i : Int)).toNat = i from Int.toNat_natCast i]
          rw [List.getElem?_eq_getElem hlen]
          simp only []
          rw [span_eq html headings i hlen hsort, List.append_assoc]

theorem foldl_filterStep (html : List Char) (headings : List Heading)
    (hsort : headings.Pairwise (fun a b => a.position < b.position)) :
    ∀ (ts : List Selector) (acc : List Char × Bool),
      (List.foldl (filterStep html headings) acc ts).1 =
        acc.1 ++ (ts.map (fun t =>
          match resolveSelector headings t with
          | some i => sectionSpan html headings i ++ '\n' :: '\n' :: []
          | none => [])).flatten := by
  intro ts
  induction ts with
  | nil =>
      intro acc
      simp
  | cons t ts ih =>
      intro acc
      rw [List.foldl_cons, ih (filterStep html headings acc t),
        filterStep_resolved html headings hsort acc t]
      rw [List.map_cons, List.flatten_cons, List.append_assoc]

/-- C5: over a heading list in document order (positions strictly
increasing, as the indexer produces them), the Section Filter resolves
each numeric selector `n` to the heading at index `n - 1` (when it
exists) and each text selector to the first heading whose text contains
the selector case-insensitively (or to none); each resolved heading
contributes the span from its position up to the position of the next
heading in document order whose level is at most the matched heading's
level (end of fragment if none); and the output concatenates the matched
spans in selector order, each followed by a blank line. -/
theorem filterContentByHeadings_spec (html : List Char) (headings : List Heading)
    (targets : List Selector)
    (hsort : headings.Pairwise (fun a b => a.position < b.position)) :
    (filterContentByHeadings html headings targets).html =
      (targets.map (fun t =>
        match resolveSelector headings t with
        | some i => sectionSpan html headings i ++ '\n' :: '\n' :: []
        | none => [])).flatten := by
  simp only [filterContentByHeadings]
  rw [foldl_filterStep html headings hsort targets ([], false)]
  rfl

/-- Witness for C5: filtering "AABBBCC" by the text selector "bet" (which
resolves to the level-2 heading "Beta" at position 2, whose section ends
at "Gamma", the next heading of level ≤ 2) and the numeric selector 1
(the heading "Alpha", whose section also ends at "Gamma", the next
heading of level ≤ 1) yields the two spans in selector order. -/
theorem filterContentByHeadings_spec_witness :
    demoHeadings.Pairwise (fun a b => a.position < b.position) ∧
    (filterContentByHeadings "AABBBCC".toList demoHeadings
        [Selector.str "bet".toList, Selector.num 1]).html
      = "BBB\n\nAABBB\n\n".toList := by
  constructor
  · decide
  · rw [filterContentByHeadings_spec "AABBBCC".toList demoHeadings
      [Selector.str "bet".toList, Selector.num 1] (by decide)]
    decide

/-! ## C6: the URL normalizer -/

/-- C6: the URL normalizer agrees pointwise with its specification — when
the parsed host is github.com and the path's non-empty segments are
`{user}/{repo}/blob/{branch}/{path...}`, it returns the corresponding
raw.githubusercontent.com URL with the blob segment removed; every other
URL string, including ones the URL parser rejects as malformed, is
returned unchanged (the function is total, so it never raises). -/
theorem convertGithubToRaw_correct (url : String) :
    convertGithubToRaw url = convertGithubToRawSpec url := by
  unfold convertGithubToRaw convertGithubToRawSpec
  cases hp : parseUrl url with
  | none => rfl
  | some pr =>
      obtain ⟨host, pathname⟩ := pr
      simp only []
      by_cases hh : host = "github.com"
      · rw [if_pos hh]
        generalize (splitOnChar '/' pathname.toList).filter (fun s => s ≠ []) = parts
        rcases parts with _ | ⟨u, _ | ⟨r, _ | ⟨sg, _ | ⟨b, rest⟩⟩⟩⟩
        · rw [if_neg (by simp)]
        · rw [if_neg (by simp)]
        · rw [if_neg (by simp)]
        · rw [if_neg (by simp)]
        · simp only []
          by_cases hb : sg = "blob".toList
          · rw [if_pos hb, if_pos ⟨hh, by simp only [List.length_cons]; omega,
              by simp [hb]⟩]
            simp
          · rw [if_neg hb, if_neg (fun hcon => hb (by simpa using hcon.2.2))]
      · rw [if_neg hh]
        rw [if_neg (fun hcon => hh hcon.1)]

end WebFetch
